import Mathlib

/- Verification development for the VirtualTouchscreen camera-projector touch
   pipeline.  The C++ sources are shallowly embedded: machine integers become
   ℕ or ℤ, cv::Point becomes a pair of integers, images and masks become
   functions or lists of pixel values, and fallible code returns Option.
   Float computations whose rounding determines control flow or indices
   (the colour-cube lookup in ViewCalibrator::predict, frame averaging in
   Calibrator::capture_image) are modelled by exact binary32 / IEEE
   round-half-even arithmetic over integer fractions; float computations
   whose rounding is irrelevant to the stated claims (the trilinear blend
   values) are modelled by exact rational arithmetic. -/

namespace VT

/-! Basic cv::Point arithmetic (integer coordinate points). -/

abbrev Pt := ℤ × ℤ

def psub (a b : Pt) : Pt := (a.1 - b.1, a.2 - b.2)

def padd (a b : Pt) : Pt := (a.1 + b.1, a.2 + b.2)

def pdot (a b : Pt) : ℤ := a.1 * b.1 + a.2 * b.2

/-- cv::Point division by an integer saturates through C++ integer division,
which truncates toward zero; hence Int.tdiv. -/
def phalf (a : Pt) : Pt := (Int.tdiv a.1 2, Int.tdiv a.2 2)

/-- Integer square root by bounded search (⌊√n⌋); used to model the
truncation to int of a correctly rounded double sqrt of an integer,
which coincides with the exact integer square root for the magnitudes
in this program. -/
def intSqrt (n : ℕ) : ℕ :=
  (((List.range (n + 2)).filter (fun k => k * k ≤ n))).foldl max 0

/-! Round-half-to-even division a/b on naturals.  This is the rounding used
by cvRound (hence cv::Mat::convertTo to 8-bit) and by IEEE-754 binary32
arithmetic when the exact result is scaled into the mantissa range. -/

def rheDiv (a b : ℕ) : ℕ :=
  let q := a / b
  let r := a % b
  if 2 * r < b then q
  else if b < 2 * r then q + 1
  else if q % 2 = 0 then q else q + 1

/-! Exact binary32 (float) rounding model over nonnegative fractions a/b.
A float value is represented as a pair (m, x) denoting m * 2^x.  The model
is exact for the magnitude range used by the embedded code (2^-12 ≤ q < 2^5,
far from subnormals and overflow), which covers every value that reaches it:
channel values c/255 ∈ [1/255, 1], the colour step 1/7, and their quotients. -/

def le_pow2_frac (e : ℤ) (a b : ℕ) : Bool :=
  if 0 ≤ e then b * 2 ^ e.toNat ≤ a else b ≤ a * 2 ^ (-e).toNat

/-- Largest e with 2^e ≤ a/b, searched over the exponent range [-12, 4]. -/
def floorLog2Frac (a b : ℕ) : ℤ :=
  (((List.range 17).map (fun i => (i : ℤ) - 12)).filter
    (fun e => le_pow2_frac e a b)).foldl max (-12)

/-- Round the fraction a/b to the nearest binary32 value (ties to even). -/
def roundFloatFrac (a b : ℕ) : ℕ × ℤ :=
  if a = 0 then (0, 0)
  else
    let e := floorLog2Frac a b
    let m := if 0 ≤ 23 - e then rheDiv (a * 2 ^ (23 - e).toNat) b
             else rheDiv a (b * 2 ^ (e - 23).toNat)
    (m, e - 23)

/-- Correctly rounded binary32 division of two represented floats. -/
def divFloat (x y : ℕ × ℤ) : ℕ × ℤ :=
  let d := x.2 - y.2
  if 0 ≤ d then roundFloatFrac (x.1 * 2 ^ d.toNat) y.1
  else roundFloatFrac x.1 (y.1 * 2 ^ (-d).toNat)

/-- Truncation of a nonnegative represented float to an integer
(static_cast<int> on a nonnegative float). -/
def floatFloorNat (x : ℕ × ℤ) : ℕ :=
  if 0 ≤ x.2 then x.1 * 2 ^ x.2.toNat else x.1 / 2 ^ (-x.2).toNat

/-- Exact rational value of a represented float. -/
def f32ToRat (x : ℕ × ℤ) : ℚ := (x.1 : ℚ) * (2 : ℚ) ^ x.2

/-! Utility/Common.hpp helpers. -/

/-- vt::xyz_to_3d_index from Utility/Common.hpp (arguments nonnegative at
every call site modelled here). -/
def xyz_to_3d_index (x y z size : ℕ) : ℕ := (z * size + y) * size + x

/-- vt::lerp from Utility/Common.hpp, instantiated at scalars. -/
def lerp (v0 v1 x : ℚ) : ℚ := v0 * (1 - x) + v1 * x

abbrev Vec3 := ℚ × ℚ × ℚ

def lerpV (a b : Vec3) (x : ℚ) : Vec3 :=
  (lerp a.1 b.1 x, lerp a.2.1 b.2.1 x, lerp a.2.2 b.2.2 x)

/-- vt::blerp: blerp(v00, v01, v11, v10, x, y) = lerp(lerp(v00,v10,x), lerp(v01,v11,x), y). -/
def blerpV (v00 v01 v11 v10 : Vec3) (x y : ℚ) : Vec3 :=
  lerpV (lerpV v00 v10 x) (lerpV v01 v11 x) y

/-- vt::tlerp from Utility/Common.hpp. -/
def tlerpV (v000 v010 v110 v100 v001 v011 v111 v101 : Vec3) (x y z : ℚ) : Vec3 :=
  lerpV (blerpV v000 v010 v110 v100 x y) (blerpV v001 v011 v111 v101 x y) z

/-! ViewCalibrator photometric model (ViewCalibrator.cpp). -/

def CMAP_SIZE : ℕ := 8

/-- CMAP_STEP = 1.0f / (CMAP_SIZE - 1.0f), i.e. the float nearest 1/7. -/
def cmapStepF : ℕ × ℤ := roundFloatFrac 1 7

def cmapStepQ : ℚ := f32ToRat cmapStepF

/-- Float value of norm_col = cv::Vec3f(colour) / 255.0f for one channel. -/
def normColQ (c : ℕ) : ℚ := f32ToRat (roundFloatFrac c 255)

/-- Cube index static_cast<int>(norm_col[i] / CMAP_STEP) in
ViewCalibrator::predict, with both the channel normalisation and the
division by CMAP_STEP correctly rounded to binary32. -/
def cubeIndex (c : ℕ) : ℕ :=
  floatFloorNat (divFloat (roundFloatFrac c 255) cmapStepF)

/-- Trilinear interpolation factor (norm_col - sub_coord) / CMAP_STEP for
one channel (exact rational arithmetic; rounding of these value-path
operations does not affect the claims stated below). -/
def tlerpFactor (c : ℕ) : ℚ :=
  (normColQ c - (cubeIndex c : ℚ) * cmapStepQ) / cmapStepQ

/-- One pixel of ViewCalibrator::predict: locate the colour sub-cube,
trilinearly interpolate the eight surrounding colour-map entries, and
multiply channelwise by the pixel's reflectance.  The colour map is the
512-entry m_ColourMap viewed as a function of the flat index. -/
def predictPixel (colour_map : ℕ → Vec3) (reflectance : Vec3)
    (colour : ℕ × ℕ × ℕ) : Vec3 :=
  let x := cubeIndex colour.1
  let y := cubeIndex colour.2.1
  let z := cubeIndex colour.2.2
  let p := tlerpV
    (colour_map (xyz_to_3d_index x y z CMAP_SIZE))
    (colour_map (xyz_to_3d_index x (y + 1) z CMAP_SIZE))
    (colour_map (xyz_to_3d_index (x + 1) (y + 1) z CMAP_SIZE))
    (colour_map (xyz_to_3d_index (x + 1) y z CMAP_SIZE))
    (colour_map (xyz_to_3d_index x y (z + 1) CMAP_SIZE))
    (colour_map (xyz_to_3d_index x (y + 1) (z + 1) CMAP_SIZE))
    (colour_map (xyz_to_3d_index (x + 1) (y + 1) (z + 1) CMAP_SIZE))
    (colour_map (xyz_to_3d_index (x + 1) y (z + 1) CMAP_SIZE))
    (tlerpFactor colour.1) (tlerpFactor colour.2.1) (tlerpFactor colour.2.2)
  (p.1 * reflectance.1, p.2.1 * reflectance.2.1, p.2.2 * reflectance.2.2)

/-- ViewCalibrator::predict over a whole image: per-pixel prediction with
the pixel's own reflectance triple. -/
def predictImage (colour_map : ℕ → Vec3) (reflectance_map : ℕ × ℕ → Vec3)
    (src : ℕ × ℕ → ℕ × ℕ × ℕ) : ℕ × ℕ → Vec3 :=
  fun p => predictPixel colour_map (reflectance_map p) (src p)

/-! ViewCalibrator::find_photometric_model LUT fill indexing (C9). -/

/-- Rows of the 16x16 colour pattern cv::Mat pattern(16, 16, CV_8UC3). -/
def patternRows : ℕ := 16

/-- Columns of the 16x16 colour pattern. -/
def patternCols : ℕ := 16

/-- The map index written by the source:
(k * 256) + (r * pattern.rows) + c  (ViewCalibrator.cpp line 464). -/
def lutMapIndex (k r c : ℕ) : ℕ := k * 256 + r * patternRows + c

/-- Modelled from the spec: the intended index (k * 256) + r * pattern.cols + c. -/
def lutMapIndexSpec (k r c : ℕ) : ℕ := k * 256 + r * patternCols + c

/-! Claim C9. -/

/-- C9: since pattern.rows = pattern.cols = 16, the implemented LUT index
(k*256) + r*pattern.rows + c coincides with the intended
(k*256) + r*pattern.cols + c on the whole write domain, and the 512 writes
(k < 2, r < 16, c < 16) hit each of the 512 LUT slots exactly once. -/
theorem lut_index_schemes_equivalent :
    (∀ k r c, k < 2 → r < 16 → c < 16 → lutMapIndex k r c = lutMapIndexSpec k r c)
    ∧ (∀ n, n < 512 → ∃ k r c, (k < 2 ∧ r < 16 ∧ c < 16) ∧ lutMapIndex k r c = n ∧
        ∀ k' r' c', (k' < 2 ∧ r' < 16 ∧ c' < 16) → lutMapIndex k' r' c' = n →
          k' = k ∧ r' = r ∧ c' = c) := by
  constructor
  · intro k r c _ _ _
    rfl
  · intro n hn
    refine ⟨n / 256, n % 256 / 16, n % 16, ⟨by omega, by omega, by omega⟩, ?_, ?_⟩
    · simp only [lutMapIndex, patternRows]
      omega
    · intro k' r' c' hb he
      simp only [lutMapIndex, patternRows] at he
      omega

/-- Witness for C9 at the last write (k,r,c) = (1,15,15) and slot 511. -/
theorem lut_index_schemes_equivalent_witness :
    lutMapIndex 1 15 15 = lutMapIndexSpec 1 15 15 ∧ lutMapIndex 1 15 15 = 511 :=
  ⟨lut_index_schemes_equivalent.1 1 15 15 (by decide) (by decide) (by decide),
   by decide⟩

/-! Claim C10. -/

set_option maxRecDepth 40000 in
/-- C10: for every 8-bit channel triple the cube indices computed by
predict lie in [0, 6] (in particular channel value 255 gives index 6, not 7,
because the float quotient (255/255)/(1/7) rounds below 7), so all eight
colour-map accesses xyz_to_3d_index(x or x+1, y or y+1, z or z+1, 8) are
strictly below 512 and predict never reads out of bounds. -/
theorem predict_cube_index_in_bounds (c1 c2 c3 : ℕ)
    (h1 : c1 ≤ 255) (h2 : c2 ≤ 255) (h3 : c3 ≤ 255) :
    cubeIndex c1 ≤ 6 ∧ cubeIndex c2 ≤ 6 ∧ cubeIndex c3 ≤ 6 ∧
    cubeIndex 255 = 6 ∧
    (∀ dx dy dz, dx ≤ 1 → dy ≤ 1 → dz ≤ 1 →
      xyz_to_3d_index (cubeIndex c1 + dx) (cubeIndex c2 + dy) (cubeIndex c3 + dz)
        CMAP_SIZE < 512) := by
  have key : ∀ c, c < 256 → cubeIndex c ≤ 6 := by decide
  have k1 := key c1 (by omega)
  have k2 := key c2 (by omega)
  have k3 := key c3 (by omega)
  refine ⟨k1, k2, k3, by decide, ?_⟩
  intro dx dy dz hx hy hz
  simp only [xyz_to_3d_index, CMAP_SIZE]
  omega

/-- Witness for C10 at the saturated white pixel (255,255,255) and the
far-corner access (x+1, y+1, z+1). -/
theorem predict_cube_index_in_bounds_witness :
    cubeIndex 255 ≤ 6 ∧
    xyz_to_3d_index (cubeIndex 255 + 1) (cubeIndex 255 + 1) (cubeIndex 255 + 1)
      CMAP_SIZE < 512 :=
  ⟨(predict_cube_index_in_bounds 255 255 255 (by decide) (by decide) (by decide)).1,
   (predict_cube_index_in_bounds 255 255 255 (by decide) (by decide)
      (by decide)).2.2.2.2 1 1 1 (by decide) (by decide) (by decide)⟩

/-! Claim C7. -/

theorem lerp_zero (a b : ℚ) : lerp a b 0 = a := by
  simp [lerp]

theorem lerpV_zero (a b : Vec3) : lerpV a b 0 = a := by
  cases a
  simp [lerpV, lerp_zero]

theorem tlerpV_zero (v000 v010 v110 v100 v001 v011 v111 v101 : Vec3) :
    tlerpV v000 v010 v110 v100 v001 v011 v111 v101 0 0 0 = v000 := by
  simp [tlerpV, blerpV, lerpV_zero]

theorem cubeIndex_zero : cubeIndex 0 = 0 := by decide

theorem normColQ_zero : normColQ 0 = 0 := by
  have h : roundFloatFrac 0 255 = (0, 0) := by decide
  simp [normColQ, h, f32ToRat]

theorem tlerpFactor_zero : tlerpFactor 0 = 0 := by
  simp [tlerpFactor, cubeIndex_zero, normColQ_zero]

/-- C7: for every calibration state and every all-black 8-bit input image,
predict produces at each pixel exactly the pixel's reflectance triple
multiplied channelwise by the colour LUT entry at flat index
xyz_to_3d_index 0 0 0 8 = 0, the ambient/black response.  (In this exact
rational embedding every LUT and reflectance entry is finite.) -/
theorem predict_black_image (colour_map : ℕ → Vec3) (reflectance_map : ℕ × ℕ → Vec3)
    (src : ℕ × ℕ → ℕ × ℕ × ℕ) (hblack : ∀ q, src q = (0, 0, 0)) (p : ℕ × ℕ) :
    predictImage colour_map reflectance_map src p =
      ((colour_map (xyz_to_3d_index 0 0 0 CMAP_SIZE)).1 * (reflectance_map p).1,
       (colour_map (xyz_to_3d_index 0 0 0 CMAP_SIZE)).2.1 * (reflectance_map p).2.1,
       (colour_map (xyz_to_3d_index 0 0 0 CMAP_SIZE)).2.2 * (reflectance_map p).2.2) := by
  simp only [predictImage, hblack p, predictPixel, cubeIndex_zero, tlerpFactor_zero,
    tlerpV_zero]

/-- Witness for C7: a concrete two-entry colour map and constant
reflectance on the constant black image. -/
theorem predict_black_image_witness :
    predictImage (fun i => if i = 0 then ((3 : ℚ), (5 : ℚ), (7 : ℚ)) else (0, 0, 0))
        (fun _ => ((2 : ℚ), (1 : ℚ), (4 : ℚ))) (fun _ => (0, 0, 0)) (10, 20) =
      (3 * 2, 5 * 1, 7 * 4) :=
  predict_black_image _ _ _ (fun _ => rfl) (10, 20)

/-! MaskGenerator delay queue (MaskGenerator.cpp).  m_FrameQueue is a vector
of D = prediction_delay frames with a single write cursor m_WriteIndex. -/

/-- prediction_delay from Configuration.hpp. -/
def prediction_delay : ℕ := 3

structure FrameQueue (α : Type) where
  frames : List α
  writeIndex : ℕ

/-- The queue update at the end of one predictor_process iteration:
prediction_buffer.copyTo(m_FrameQueue[m_WriteIndex]);
m_WriteIndex = (m_WriteIndex + 1) % m_FrameQueue.size(). -/
def queuePush {α : Type} (q : FrameQueue α) (p : α) : FrameQueue α :=
  { frames := q.frames.set q.writeIndex p,
    writeIndex := (q.writeIndex + 1) % q.frames.length }

/-- MaskGenerator::read_prediction: copy m_FrameQueue[m_WriteIndex]. -/
def read_prediction {α : Type} (q : FrameQueue α) (dflt : α) : α :=
  q.frames.getD q.writeIndex dflt

/-- Producer-side state: the thread-local prediction_buffer plus the queue. -/
structure ProducerState (α : Type) where
  predictionBuffer : α
  queue : FrameQueue α

/-- One iteration of MaskGenerator::predictor_process.  The input is some
newly predicted frame when screen_capture->read returned a new screen
buffer, and none on a timeout; in either case the iteration pushes the
current prediction_buffer into the queue slot at write_index and advances
write_index by one modulo D. -/
def producerIteration {α : Type} (s : ProducerState α) (input : Option α) :
    ProducerState α :=
  let pred := match input with
    | some f => f
    | none => s.predictionBuffer
  { predictionBuffer := pred, queue := queuePush s.queue pred }

def producerRun {α : Type} (s : ProducerState α) (inputs : List (Option α)) :
    ProducerState α :=
  inputs.foldl producerIteration s

/-- The sequence of frames the producer writes into the queue: the new
prediction when one arrived, otherwise a reuse of the last prediction. -/
def writtenFrames {α : Type} (pred : α) : List (Option α) → List α
  | [] => []
  | o :: rest =>
    let p := match o with
      | some f => f
      | none => pred
    p :: writtenFrames p rest

/-- Plain sequence of queue pushes. -/
def writeAll {α : Type} (q : FrameQueue α) (fs : List α) : FrameQueue α :=
  fs.foldl queuePush q

theorem queuePush_length {α : Type} (q : FrameQueue α) (p : α) :
    (queuePush q p).frames.length = q.frames.length := by
  simp [queuePush]

theorem writeAll_length {α : Type} (q : FrameQueue α) (fs : List α) :
    (writeAll q fs).frames.length = q.frames.length := by
  induction fs generalizing q with
  | nil => rfl
  | cons f rest ih =>
    simpa [writeAll, List.foldl_cons, queuePush_length] using ih (queuePush q f)

theorem writeAll_writeIndex {α : Type} (q : FrameQueue α) (fs : List α)
    (hwi : q.writeIndex < q.frames.length) :
    (writeAll q fs).writeIndex = (q.writeIndex + fs.length) % q.frames.length := by
  induction fs generalizing q with
  | nil =>
    simp [writeAll, Nat.mod_eq_of_lt hwi]
  | cons f rest ih =>
    have hlen : 0 < q.frames.length := by omega
    have h1 : (queuePush q f).writeIndex < (queuePush q f).frames.length := by
      simp only [queuePush_length]
      exact Nat.mod_lt _ hlen
    have h2 := ih (queuePush q f) h1
    calc (writeAll q (f :: rest)).writeIndex
        = (writeAll (queuePush q f) rest).writeIndex := rfl
      _ = ((queuePush q f).writeIndex + rest.length) %
            (queuePush q f).frames.length := h2
      _ = ((q.writeIndex + 1) % q.frames.length + rest.length) %
            q.frames.length := by
          simp only [queuePush, List.length_set]
      _ = (q.writeIndex + 1 + rest.length) % q.frames.length := by
          rw [Nat.mod_add_mod]
      _ = (q.writeIndex + (f :: rest).length) % q.frames.length := by
          rw [show q.writeIndex + 1 + rest.length =
            q.writeIndex + (f :: rest).length from by simp; omega]

theorem writeAll_untouched {α : Type} (q : FrameQueue α) (fs : List α)
    (s : ℕ) (dflt : α)
    (h : ∀ t, t < fs.length → (q.writeIndex + t) % q.frames.length ≠ s) :
    (writeAll q fs).frames.getD s dflt = q.frames.getD s dflt := by
  induction fs generalizing q with
  | nil => rfl
  | cons f rest ih =>
    have hne : q.writeIndex % q.frames.length ≠ s := by
      simpa using h 0 (by simp)
    have step : (queuePush q f).frames.getD s dflt = q.frames.getD s dflt := by
      simp only [queuePush]
      rcases Nat.lt_or_ge q.writeIndex q.frames.length with hlt | hge
      · have hxs : q.writeIndex ≠ s := by
          rwa [Nat.mod_eq_of_lt hlt] at hne
        simp [List.getD_eq_getElem?_getD, List.getElem?_set_ne hxs]
      · rw [List.set_eq_of_length_le hge]
    have hrest : ∀ t, t < rest.length →
        ((queuePush q f).writeIndex + t) % (queuePush q f).frames.length ≠ s := by
      intro t ht
      simp only [queuePush, List.length_set]
      rw [Nat.mod_add_mod]
      have h2 := h (t + 1) (by simp only [List.length_cons]; omega)
      rw [show q.writeIndex + 1 + t = q.writeIndex + (t + 1) from by omega]
      exact h2
    calc (writeAll q (f :: rest)).frames.getD s dflt
        = (writeAll (queuePush q f) rest).frames.getD s dflt := rfl
      _ = (queuePush q f).frames.getD s dflt := ih _ hrest
      _ = q.frames.getD s dflt := step

/-- Reading the queue after at least D = queue-length pushes returns the push
made exactly D pushes before the end, i.e. the oldest of the last D writes. -/
theorem writeAll_read {α : Type} (q : FrameQueue α) (fs : List α) (dflt : α)
    (hD : 0 < q.frames.length) (hwi : q.writeIndex < q.frames.length)
    (hlen : q.frames.length ≤ fs.length) :
    read_prediction (writeAll q fs) dflt =
      fs.getD (fs.length - q.frames.length) dflt := by
  induction fs generalizing q with
  | nil =>
    exfalso
    simp only [List.length_nil] at hlen
    omega
  | cons f rest ih =>
    have hlenpush : (queuePush q f).frames.length = q.frames.length :=
      queuePush_length q f
    have hwipush : (queuePush q f).writeIndex < (queuePush q f).frames.length := by
      rw [hlenpush]
      exact Nat.mod_lt _ hD
    rcases Nat.lt_or_ge rest.length q.frames.length with hshort | hlong
    · -- rest has exactly D - 1 entries: the D-th-from-last push is f itself.
      have hrlen : rest.length = q.frames.length - 1 := by
        simp only [List.length_cons] at hlen
        omega
      have huntouched : ∀ t, t < rest.length →
          ((queuePush q f).writeIndex + t) % (queuePush q f).frames.length ≠
            q.writeIndex := by
        intro t ht
        simp only [queuePush, List.length_set]
        rw [Nat.mod_add_mod]
        intro heq
        have hlt : q.writeIndex + 1 + t < 2 * q.frames.length := by omega
        rcases Nat.lt_or_ge (q.writeIndex + 1 + t) q.frames.length with hc | hc
        · rw [Nat.mod_eq_of_lt hc] at heq
          omega
        · have : (q.writeIndex + 1 + t) % q.frames.length =
              q.writeIndex + 1 + t - q.frames.length := by
            rw [Nat.mod_eq_sub_mod hc, Nat.mod_eq_of_lt (by omega)]
          rw [this] at heq
          omega
      have hread : read_prediction (writeAll (queuePush q f) rest) dflt =
          (queuePush q f).frames.getD q.writeIndex dflt := by
        have hwidx := writeAll_writeIndex (queuePush q f) rest hwipush
        simp only [read_prediction, hwidx, hlenpush]
        have hpushwi : (queuePush q f).writeIndex =
            (q.writeIndex + 1) % q.frames.length := rfl
        rw [hpushwi, Nat.mod_add_mod,
          show q.writeIndex + 1 + rest.length = q.writeIndex + q.frames.length from
            by omega,
          Nat.add_mod_right, Nat.mod_eq_of_lt hwi]
        exact writeAll_untouched (queuePush q f) rest q.writeIndex dflt huntouched
      calc read_prediction (writeAll q (f :: rest)) dflt
          = read_prediction (writeAll (queuePush q f) rest) dflt := rfl
        _ = (queuePush q f).frames.getD q.writeIndex dflt := hread
        _ = f := by
            simp only [queuePush]
            simp [List.getD_eq_getElem?_getD, List.getElem?_set_self hwi]
        _ = (f :: rest).getD ((f :: rest).length - q.frames.length) dflt := by
            have : (f :: rest).length - q.frames.length = 0 := by
              simp only [List.length_cons]
              omega
            rw [this, List.getD_cons_zero]
    · -- rest still holds at least D entries: drop the head push.
      have := ih (queuePush q f) (by rwa [hlenpush]) hwipush (by rwa [hlenpush])
      calc read_prediction (writeAll q (f :: rest)) dflt
          = read_prediction (writeAll (queuePush q f) rest) dflt := rfl
        _ = rest.getD (rest.length - (queuePush q f).frames.length) dflt := this
        _ = (f :: rest).getD ((f :: rest).length - q.frames.length) dflt := by
            rw [hlenpush]
            have hpos : (f :: rest).length - q.frames.length =
                (rest.length - q.frames.length) + 1 := by
              simp only [List.length_cons]
              omega
            rw [hpos, List.getD_cons_succ]

theorem producerRun_queue {α : Type} (p : α) (q : FrameQueue α)
    (inputs : List (Option α)) :
    (producerRun ⟨p, q⟩ inputs).queue = writeAll q (writtenFrames p inputs) := by
  induction inputs generalizing p q with
  | nil => rfl
  | cons o rest ih =>
    cases o with
    | some f =>
      simpa [producerRun, producerIteration, writtenFrames, writeAll] using
        ih f (queuePush q f)
    | none =>
      simpa [producerRun, producerIteration, writtenFrames, writeAll] using
        ih p (queuePush q p)

theorem writtenFrames_length {α : Type} (p : α) (inputs : List (Option α)) :
    (writtenFrames p inputs).length = inputs.length := by
  induction inputs generalizing p with
  | nil => rfl
  | cons o rest ih =>
    cases o <;> simp [writtenFrames, ih]

/-- C2: every producer iteration writes exactly one predicted frame at slot
write_index and advances write_index by one modulo D, whether or not a new
screen frame arrived; read_prediction reads slot write_index, and after at
least D producer writes that slot always holds the oldest of the D most
recently written frames — the frame written D-1 writes before the newest. -/
theorem delay_queue_read_oldest {α : Type} (dflt p : α) (q : FrameQueue α)
    (inputs : List (Option α))
    (hD : 0 < q.frames.length) (hwi : q.writeIndex < q.frames.length)
    (hlen : q.frames.length ≤ inputs.length) :
    (producerRun ⟨p, q⟩ inputs).queue = writeAll q (writtenFrames p inputs) ∧
    (writtenFrames p inputs).length = inputs.length ∧
    (producerRun ⟨p, q⟩ inputs).queue.writeIndex =
      (q.writeIndex + inputs.length) % q.frames.length ∧
    read_prediction (producerRun ⟨p, q⟩ inputs).queue dflt =
      (writtenFrames p inputs).getD (inputs.length - q.frames.length) dflt := by
  have hq := producerRun_queue p q inputs
  have hl := writtenFrames_length p inputs
  refine ⟨hq, hl, ?_, ?_⟩
  · rw [hq, writeAll_writeIndex q _ hwi, hl]
  · rw [hq, writeAll_read q _ dflt hD hwi (by rw [hl]; exact hlen), hl]

/-- Witness for C2: D = prediction_delay = 3, four producer iterations (the
second a screen-capture timeout); the consumer then reads the frame written
three writes before the end, i.e. the first write. -/
theorem delay_queue_read_oldest_witness :
    (producerRun ⟨0, ⟨[0, 0, 0], 0⟩⟩
        [some 7, none, some 9, some 4] : ProducerState ℕ).queue =
        writeAll ⟨[0, 0, 0], 0⟩ (writtenFrames 0 [some 7, none, some 9, some 4]) ∧
    (writtenFrames (0 : ℕ) [some 7, none, some 9, some 4]).length = 4 ∧
    (producerRun ⟨0, ⟨[0, 0, 0], 0⟩⟩
        [some 7, none, some 9, some 4] : ProducerState ℕ).queue.writeIndex =
      (0 + 4) % 3 ∧
    read_prediction (producerRun ⟨0, ⟨[0, 0, 0], 0⟩⟩
        [some 7, none, some 9, some 4] : ProducerState ℕ).queue 0 =
      (writtenFrames 0 [some 7, none, some 9, some 4]).getD (4 - 3) 0 := by
  have h := delay_queue_read_oldest (α := ℕ) 0 0 ⟨[0, 0, 0], 0⟩
    [some 7, none, some 9, some 4] (by decide) (by decide) (by decide)
  simpa using h

/-! FingerTracker fingertips and the touch decider (find_touch_action in
the main translation unit). -/

structure Fingertip where
  point : Pt
  com : Pt
  age : ℕ
  id : ℕ
deriving DecidableEq

def MIN_FINGER_AGE : ℕ := 5

/-- The fingertip-selection loop of find_touch_action: scan the candidate
list; a candidate whose id equals the remembered last_fingertip.id is
chosen immediately (break); otherwise a candidate whose age is at least the
running oldest_age (initially MIN_FINGER_AGE) replaces the running choice. -/
def selectLoop (last : ℕ) : ℕ → Option Fingertip → List Fingertip → Option Fingertip
  | _, chosen, [] => chosen
  | oldest, chosen, f :: rest =>
    if f.id = last then some f
    else if oldest ≤ f.age then selectLoop last f.age (some f) rest
    else selectLoop last oldest chosen rest

def selectFingertip (last : ℕ) (fts : List Fingertip) : Option Fingertip :=
  selectLoop last MIN_FINGER_AGE none fts

theorem selectLoop_id_match (last : ℕ) (fts : List Fingertip) :
    ∀ oldest chosen, (∃ f ∈ fts, f.id = last) →
      ∃ g, selectLoop last oldest chosen fts = some g ∧ g.id = last := by
  induction fts with
  | nil =>
    rintro oldest chosen ⟨f, hf, _⟩
    exact absurd hf (List.not_mem_nil f)
  | cons f rest ih =>
    rintro oldest chosen ⟨w, hw, hid⟩
    by_cases hf : f.id = last
    · exact ⟨f, by simp [selectLoop, hf], hf⟩
    · have hwrest : w ∈ rest := by
        rcases List.mem_cons.mp hw with h | h
        · exact absurd (h ▸ hid) hf
        · exact h
      by_cases hage : oldest ≤ f.age
      · have := ih f.age (some f) ⟨w, hwrest, hid⟩
        simpa [selectLoop, hf, hage] using this
      · have := ih oldest chosen ⟨w, hwrest, hid⟩
        simpa [selectLoop, hf, hage] using this

theorem selectLoop_sound (last : ℕ) (fts : List Fingertip) :
    ∀ oldest chosen, MIN_FINGER_AGE ≤ oldest →
      (∀ g, chosen = some g → g.id = last ∨ MIN_FINGER_AGE ≤ g.age) →
      ∀ g, selectLoop last oldest chosen fts = some g →
        g.id = last ∨ MIN_FINGER_AGE ≤ g.age := by
  induction fts with
  | nil =>
    intro oldest chosen _ hinv g hg
    exact hinv g hg
  | cons f rest ih =>
    intro oldest chosen hold hinv g hg
    by_cases hf : f.id = last
    · simp only [selectLoop, if_pos hf] at hg
      left
      rw [← Option.some_inj.mp hg]
      exact hf
    · by_cases hage : oldest ≤ f.age
      · simp only [selectLoop, if_neg hf, if_pos hage] at hg
        exact ih f.age (some f) (by omega)
          (by rintro g0 hsome; right; rw [← Option.some_inj.mp hsome]; omega) g hg
      · simp only [selectLoop, if_neg hf, if_neg hage] at hg
        exact ih oldest chosen hold hinv g hg

theorem selectLoop_oldest (last : ℕ) (fts : List Fingertip) :
    ∀ oldest chosen, (∀ f ∈ fts, f.id ≠ last) →
      ∀ g, selectLoop last oldest chosen fts = some g →
        (chosen = some g ∧ ∀ f ∈ fts, f.age < oldest) ∨
        (oldest ≤ g.age ∧ ∀ f ∈ fts, f.age ≤ g.age) := by
  induction fts with
  | nil =>
    intro oldest chosen _ g hg
    left
    exact ⟨hg, by simp⟩
  | cons f rest ih =>
    intro oldest chosen hne g hg
    have hfne : f.id ≠ last := hne f (by simp)
    by_cases hage : oldest ≤ f.age
    · simp only [selectLoop, if_neg hfne, if_pos hage] at hg
      rcases ih f.age (some f) (fun x hx => hne x (by simp [hx])) g hg with
        ⟨hch, hlt⟩ | ⟨hle, hall⟩
      · have hgf : f = g := Option.some_inj.mp hch
        subst hgf
        right
        refine ⟨hage, ?_⟩
        intro x hx
        rcases List.mem_cons.mp hx with h | h
        · subst h
          exact le_rfl
        · have := hlt x h
          omega
      · right
        refine ⟨by omega, ?_⟩
        intro x hx
        rcases List.mem_cons.mp hx with h | h
        · subst h
          omega
        · exact hall x h
    · simp only [selectLoop, if_neg hfne, if_neg hage] at hg
      rcases ih oldest chosen (fun x hx => hne x (by simp [hx])) g hg with
        ⟨hch, hlt⟩ | ⟨hle, hall⟩
      · left
        refine ⟨hch, ?_⟩
        intro x hx
        rcases List.mem_cons.mp hx with h | h
        · subst h
          omega
        · exact hlt x h
      · right
        refine ⟨hle, ?_⟩
        intro x hx
        rcases List.mem_cons.mp hx with h | h
        · subst h
          omega
        · exact hall x h

theorem selectLoop_some_of_chosen (last : ℕ) (fts : List Fingertip) :
    ∀ oldest g0, (selectLoop last oldest (some g0) fts).isSome = true := by
  induction fts with
  | nil =>
    intro oldest g0
    rfl
  | cons f rest ih =>
    intro oldest g0
    by_cases hf : f.id = last
    · simp [selectLoop, hf]
    · by_cases hage : oldest ≤ f.age
      · simpa [selectLoop, hf, hage] using ih f.age f
      · simpa [selectLoop, hf, hage] using ih oldest g0

theorem selectLoop_some_of_aged (last : ℕ) (fts : List Fingertip) :
    ∀ oldest chosen, (∃ f ∈ fts, oldest ≤ f.age) →
      (selectLoop last oldest chosen fts).isSome = true := by
  induction fts with
  | nil =>
    rintro oldest chosen ⟨f, hf, _⟩
    exact absurd hf (List.not_mem_nil f)
  | cons f rest ih =>
    rintro oldest chosen ⟨w, hw, hage⟩
    by_cases hf : f.id = last
    · simp [selectLoop, hf]
    · by_cases hfa : oldest ≤ f.age
      · simpa [selectLoop, hf, hfa] using selectLoop_some_of_chosen last rest f.age f
      · have hwrest : w ∈ rest := by
          rcases List.mem_cons.mp hw with h | h
          · subst h
            omega
          · exact h
        simpa [selectLoop, hf, hfa] using ih oldest chosen ⟨w, hwrest, hage⟩

/-! Claim C4. -/

/-- C4: in fingertip selection, a candidate whose id equals the remembered
last-acted-on id is selected when present; otherwise any selected candidate
has age at least MIN_FINGER_AGE = 5 and maximal age among the candidates,
and a candidate exists whenever some candidate has age ≥ 5; consequently no
candidate with age below 5 whose id differs from the remembered id is ever
selected (and hence none produces a pointer action). -/
theorem fingertip_selection (last : ℕ) (fts : List Fingertip) :
    (∀ g, selectFingertip last fts = some g → g.id = last ∨ MIN_FINGER_AGE ≤ g.age)
    ∧ ((∃ f ∈ fts, f.id = last) →
        ∃ g, selectFingertip last fts = some g ∧ g.id = last)
    ∧ ((∀ f ∈ fts, f.id ≠ last) → ∀ g, selectFingertip last fts = some g →
        MIN_FINGER_AGE ≤ g.age ∧ ∀ f ∈ fts, f.age ≤ g.age)
    ∧ ((∀ f ∈ fts, f.id ≠ last) → (∃ f ∈ fts, MIN_FINGER_AGE ≤ f.age) →
        (selectFingertip last fts).isSome = true) := by
  refine ⟨?_, ?_, ?_, ?_⟩
  · intro g hg
    exact selectLoop_sound last fts MIN_FINGER_AGE none le_rfl
      (by intro g0 h; cases h) g hg
  · intro hex
    exact selectLoop_id_match last fts MIN_FINGER_AGE none hex
  · intro hne g hg
    rcases selectLoop_oldest last fts MIN_FINGER_AGE none hne g hg with
      ⟨hch, _⟩ | ⟨hle, hall⟩
    · cases hch
    · refine ⟨hle, hall⟩
  · intro _ hex
    exact selectLoop_some_of_aged last fts MIN_FINGER_AGE none hex

/-- Witness for C4: an id match (id 7) wins even at age 3 < 5. -/
theorem fingertip_selection_witness :
    selectFingertip 7 [⟨(1, 1), (2, 2), 3, 7⟩] = some ⟨(1, 1), (2, 2), 3, 7⟩ ∧
    ((⟨(1, 1), (2, 2), 3, 7⟩ : Fingertip).id = 7 ∨
      MIN_FINGER_AGE ≤ (⟨(1, 1), (2, 2), 3, 7⟩ : Fingertip).age) :=
  ⟨by decide,
   (fingertip_selection 7 [⟨(1, 1), (2, 2), 3, 7⟩]).1 ⟨(1, 1), (2, 2), 3, 7⟩
     (by decide)⟩

/-! Touch-ratio test of find_touch_action. -/

/-- Count of nonzero mask pixels over the half-open pixel rectangle
[x0, x1) x [y0, y1) (cv::countNonZero over a cv::Rect roi). -/
def countNonZeroRect (mask : ℕ → ℕ → Bool) (x0 x1 y0 y1 : ℕ) : ℕ :=
  (((List.range' x0 (x1 - x0)).map (fun x =>
    ((List.range' y0 (y1 - y0)).filter (fun y => mask x y)).length))).sum

/-- The radius int radius = cv::norm(com - point) + 7: the truncated
double norm of an integer vector is its integer square root. -/
def touchRadius (point com : Pt) : ℤ :=
  (intSqrt ((com.1 - point.1) ^ 2 + (com.2 - point.2) ^ 2).toNat : ℤ) + 7

/-- The roi rectangle of find_touch_action as (x0, x1, y0, y1):
cv::Rect(Point(max(com-r, 0)), Point(min(com+r, size-2))) where the
two-point cv::Rect constructor normalises corners componentwise. -/
def touchRoi (com : Pt) (radius : ℤ) (cols rows : ℕ) : ℤ × ℤ × ℤ × ℤ :=
  let tlx := max (com.1 - radius) 0
  let tly := max (com.2 - radius) 0
  let brx := min (com.1 + radius) ((cols : ℤ) - 2)
  let bry := min (com.2 + radius) ((rows : ℤ) - 2)
  (min tlx brx, max tlx brx, min tly bry, max tly bry)

/-- Modelled from the spec (used only to state C3 as written): the square
of side 2r centred on com clipped to the frame. -/
def specTouchRoi (com : Pt) (radius : ℤ) (cols rows : ℕ) : ℤ × ℤ × ℤ × ℤ :=
  (max (com.1 - radius) 0, min (com.1 + radius) (cols : ℤ),
   max (com.2 - radius) 0, min (com.2 + radius) (rows : ℤ))

def roiCountZ (mask : ℕ → ℕ → Bool) (r : ℤ × ℤ × ℤ × ℤ) : ℕ :=
  countNonZeroRect mask r.1.toNat r.2.1.toNat r.2.2.1.toNat r.2.2.2.toNat

/-- The ratio test of find_touch_action on an already selected fingertip.
float ratio = shadow / foreground compared against 0.20f and 0.30f: the
comparisons coincide with exact rational comparisons for every realizable
pixel count, and when foreground = 0 the float ratio is NaN or +inf so both
comparisons are false — modelled by the foreground ≠ 0 guard. -/
def find_touch_ratio_action (fgMask shMask : ℕ → ℕ → Bool) (cols rows : ℕ)
    (point com : Pt) : Option (Pt × Bool) :=
  let radius := touchRadius point com
  let roi := touchRoi com radius cols rows
  let shadow := roiCountZ shMask roi
  let fg := roiCountZ fgMask roi
  if fg ≠ 0 ∧ (shadow : ℚ) / fg ≤ 20 / 100 then some (point, true)
  else if fg ≠ 0 ∧ (shadow : ℚ) / fg ≤ 30 / 100 then some (point, false)
  else none

/-- find_touch_action: select a fingertip, then run the ratio test at it. -/
def find_touch_action (last : ℕ) (fts : List Fingertip)
    (fgMask shMask : ℕ → ℕ → Bool) (cols rows : ℕ) : Option (Pt × Bool) :=
  match selectFingertip last fts with
  | none => none
  | some g => find_touch_ratio_action fgMask shMask cols rows g.point g.com

/-! Claim C3. -/

/-- C3 (amended): for a selected fingertip with tip point and centre of
mass com, with r = ⌊‖com − point‖⌋ + 7 and roi the square of side 2r
centred on com clipped to [0, cols−2) x [0, rows−2) (not to the full
frame), and ρ = shadow-count / foreground-count over roi with foreground
nonzero: a touch action at the tip is returned iff ρ ≤ 0.20, a hover
action at the tip iff 0.20 < ρ ≤ 0.30, and no action otherwise. -/
theorem touch_ratio_test (fgMask shMask : ℕ → ℕ → Bool) (cols rows : ℕ)
    (point com : Pt)
    (hfg : roiCountZ fgMask (touchRoi com (touchRadius point com) cols rows) ≠ 0) :
    (find_touch_ratio_action fgMask shMask cols rows point com = some (point, true) ↔
      (roiCountZ shMask (touchRoi com (touchRadius point com) cols rows) : ℚ) /
        (roiCountZ fgMask (touchRoi com (touchRadius point com) cols rows) : ℚ) ≤ 1 / 5)
    ∧ (find_touch_ratio_action fgMask shMask cols rows point com = some (point, false) ↔
      (1 / 5 < (roiCountZ shMask (touchRoi com (touchRadius point com) cols rows) : ℚ) /
          (roiCountZ fgMask (touchRoi com (touchRadius point com) cols rows) : ℚ) ∧
        (roiCountZ shMask (touchRoi com (touchRadius point com) cols rows) : ℚ) /
          (roiCountZ fgMask (touchRoi com (touchRadius point com) cols rows) : ℚ) ≤ 3 / 10))
    ∧ (find_touch_ratio_action fgMask shMask cols rows point com = none ↔
      3 / 10 < (roiCountZ shMask (touchRoi com (touchRadius point com) cols rows) : ℚ) /
        (roiCountZ fgMask (touchRoi com (touchRadius point com) cols rows) : ℚ)) := by
  simp only [find_touch_ratio_action]
  set s : ℚ := (roiCountZ shMask (touchRoi com (touchRadius point com) cols rows) : ℚ)
    with hs
  set f : ℚ := (roiCountZ fgMask (touchRoi com (touchRadius point com) cols rows) : ℚ)
    with hf
  have e1 : (20 : ℚ) / 100 = 1 / 5 := by norm_num
  have e2 : (30 : ℚ) / 100 = 3 / 10 := by norm_num
  split_ifs with hc1 hc2
  · have hle : s / f ≤ 1 / 5 := by rw [← e1]; exact hc1.2
    refine ⟨iff_of_true rfl hle, iff_of_false (by simp) ?_, iff_of_false (by simp) ?_⟩
    · rintro ⟨hgt, _⟩
      exact absurd hle (not_le.mpr hgt)
    · intro hgt
      have : (1 : ℚ) / 5 ≤ 3 / 10 := by norm_num
      linarith
  · have hgt : 1 / 5 < s / f := by
      by_contra hcon
      exact hc1 ⟨hfg, by rw [e1]; exact not_lt.mp hcon⟩
    have hle : s / f ≤ 3 / 10 := by rw [← e2]; exact hc2.2
    refine ⟨iff_of_false (by simp) ?_, iff_of_true rfl ⟨hgt, hle⟩,
      iff_of_false (by simp) ?_⟩
    · intro hle'
      exact absurd hle' (not_le.mpr hgt)
    · intro hgt3
      exact absurd hle (not_le.mpr hgt3)
  · have hgt3 : 3 / 10 < s / f := by
      by_contra hcon
      exact hc2 ⟨hfg, by rw [e2]; exact not_lt.mp hcon⟩
    refine ⟨iff_of_false (by simp) ?_, iff_of_false (by simp) ?_,
      iff_of_true rfl hgt3⟩
    · intro hle
      have : (1 : ℚ) / 5 ≤ 3 / 10 := by norm_num
      linarith
    · rintro ⟨_, hle⟩
      exact absurd hle (not_le.mpr hgt3)

/-- Foreground mask of the C3 scenarios: ten pixels on the row y = 8. -/
def fgMaskCx (x y : ℕ) : Bool :=
  decide (2 ≤ x) && decide (x < 12) && decide (y = 8)

/-- Shadow mask of the C3 scenarios: a column of pixels at x = 14, which
lies inside the spec's frame-clipped roi but outside the implemented roi
(clipped to cols − 2 = 14 exclusive). -/
def shMaskCx (x y : ℕ) : Bool :=
  decide (x = 14) && decide (1 ≤ y) && decide (y < 15)

/-- Witness for C3: with the shadow column invisible to the implemented
roi the ratio is 0/10 ≤ 1/5, so a touch action at the tip is returned. -/
theorem touch_ratio_test_witness :
    find_touch_ratio_action fgMaskCx shMaskCx 16 16 (8, 8) (8, 8) =
      some ((8, 8), true) := by
  have h := (touch_ratio_test fgMaskCx shMaskCx 16 16 (8, 8) (8, 8)
    (by decide)).1
  apply h.mpr
  have hsv : roiCountZ shMaskCx (touchRoi (8, 8) (touchRadius (8, 8) (8, 8)) 16 16) = 0 :=
    by decide
  have hfv : roiCountZ fgMaskCx (touchRoi (8, 8) (touchRadius (8, 8) (8, 8)) 16 16) = 10 :=
    by decide
  rw [hsv, hfv]
  norm_num

/-- Counterexample for C3 as stated: the implemented roi is clipped to
(cols−2, rows−2) rather than to the frame, so with com = tip = (8,8) in a
16x16 frame a shadow column at x = 14 is outside the implemented roi (the
code returns a touch action, ratio 0/10) while the spec's frame-clipped roi
contains it (spec ratio 14/10 > 0.30, which the claim says yields no
action). -/
theorem touch_ratio_claim_counterexample :
    find_touch_ratio_action fgMaskCx shMaskCx 16 16 (8, 8) (8, 8) =
      some ((8, 8), true) ∧
    (3 : ℚ) / 10 <
      (roiCountZ shMaskCx (specTouchRoi (8, 8) (touchRadius (8, 8) (8, 8)) 16 16) : ℚ) /
      (roiCountZ fgMaskCx (specTouchRoi (8, 8) (touchRadius (8, 8) (8, 8)) 16 16) : ℚ) := by
  constructor
  · have hsv : roiCountZ shMaskCx (touchRoi (8, 8) (touchRadius (8, 8) (8, 8)) 16 16) = 0 :=
      by decide
    have hfv : roiCountZ fgMaskCx (touchRoi (8, 8) (touchRadius (8, 8) (8, 8)) 16 16) = 10 :=
      by decide
    simp only [find_touch_ratio_action, hsv, hfv]
    norm_num
  · have hss : roiCountZ shMaskCx (specTouchRoi (8, 8) (touchRadius (8, 8) (8, 8)) 16 16) = 14 :=
      by decide
    have hfs : roiCountZ fgMaskCx (specTouchRoi (8, 8) (touchRadius (8, 8) (8, 8)) 16 16) = 10 :=
      by decide
    rw [hss, hfs]
    norm_num

/-! FingerTracker focus and the tracking-region countdown (C5). -/

def CALIB_OUTPUT_WIDTH : ℤ := 640

def CALIB_OUTPUT_HEIGHT : ℤ := 480

def FOCUS_RESET_TIME : ℤ := 10

structure RectI where
  x : ℤ
  y : ℤ
  width : ℤ
  height : ℤ
deriving DecidableEq

/-- cv::Rect(Point pt1, Point pt2): the corners are normalised
componentwise (x = min, width = max - min). -/
def rectOfPoints (p1 p2 : Pt) : RectI :=
  { x := min p1.1 p2.1, y := min p1.2 p2.2,
    width := max p1.1 p2.1 - min p1.1 p2.1,
    height := max p1.2 p2.2 - min p1.2 p2.2 }

/-- The full-frame tracking region set by the reset branch of detect. -/
def fullRect (cols rows : ℤ) : RectI := ⟨0, 0, cols, rows⟩

structure TrackerState where
  region : RectI
  resetTimer : ℤ
deriving DecidableEq

/-- FingerTracker::focus: clamp the square corners and restart the
10-frame countdown.  cv::Size division by 2 truncates toward zero. -/
def focusTracker (pt : Pt) (size : ℤ × ℤ) (_s : TrackerState) : TrackerState :=
  let hw := Int.tdiv size.1 2
  let hh := Int.tdiv size.2 2
  let top_left : Pt := (max (pt.1 - hw) 0, max (pt.2 - hh) 0)
  let bot_right : Pt := (min (pt.1 + hw) (CALIB_OUTPUT_WIDTH - 1),
                         min (pt.2 + hh) (CALIB_OUTPUT_HEIGHT - 1))
  { region := rectOfPoints top_left bot_right, resetTimer := FOCUS_RESET_TIME }

/-- The region update at the head of FingerTracker::detect:
if (--m_TrackingResetTimer <= 0) the region becomes the full mask frame.
Returns the region the rest of that detect call works with, and the new
tracker state. -/
def detectRegionStep (cols rows : ℤ) (s : TrackerState) : RectI × TrackerState :=
  let t := s.resetTimer - 1
  let r := if t ≤ 0 then fullRect cols rows else s.region
  (r, ⟨r, t⟩)

def detectStateAfter (cols rows : ℤ) (s : TrackerState) : ℕ → TrackerState
  | 0 => s
  | n + 1 => (detectRegionStep cols rows (detectStateAfter cols rows s n)).2

/-- The region used by the k-th call to detect after state s (k counted
from 1). -/
def detectRegionUsed (cols rows : ℤ) (s : TrackerState) (k : ℕ) : RectI :=
  (detectRegionStep cols rows (detectStateAfter cols rows s (k - 1))).1

/-- Modelled from the spec (used to state the region clause of C5): the
square [point - size/2, point + size/2] with both corners clamped to the
valid view coordinates [0, W-1] x [0, H-1]. -/
def specFocusRegion (pt : Pt) (size : ℤ × ℤ) : RectI :=
  let hw := Int.tdiv size.1 2
  let hh := Int.tdiv size.2 2
  rectOfPoints
    (min (max (pt.1 - hw) 0) (CALIB_OUTPUT_WIDTH - 1),
     min (max (pt.2 - hh) 0) (CALIB_OUTPUT_HEIGHT - 1))
    (min (max (pt.1 + hw) 0) (CALIB_OUTPUT_WIDTH - 1),
     min (max (pt.2 + hh) 0) (CALIB_OUTPUT_HEIGHT - 1))

theorem focus_states (pt : Pt) (size : ℤ × ℤ) (cols rows : ℤ) (s0 : TrackerState) :
    ∀ n : ℕ, n ≤ 9 →
      detectStateAfter cols rows (focusTracker pt size s0) n =
        ⟨(focusTracker pt size s0).region, 10 - (n : ℤ)⟩ := by
  intro n
  induction n with
  | zero =>
    intro _
    show focusTracker pt size s0 = _
    simp [focusTracker, FOCUS_RESET_TIME]
  | succ m ih =>
    intro h
    have hm := ih (by omega)
    show (detectRegionStep cols rows (detectStateAfter cols rows
      (focusTracker pt size s0) m)).2 = _
    rw [hm]
    have hpos : ¬(10 - (m : ℤ) - 1 ≤ 0) := by
      have : (m : ℤ) ≤ 8 := by exact_mod_cast Nat.le_of_lt_succ (by omega)
      omega
    simp only [detectRegionStep, if_neg hpos]
    congr 1
    push_cast
    ring

/-- C5 (amended): focus(point, size) sets the tracking region to the
square [point - size/2, point + size/2] clamped to the view and starts a
10-frame countdown; each detect call decrements it; the focused region is
in effect for the first nine detections only — the countdown reaches zero
at the start of the tenth detect call, which already runs on the full
frame, and after exactly 10 calls the region is the full frame. -/
theorem focus_region_countdown (pt : Pt) (size : ℤ × ℤ) (cols rows : ℤ)
    (s0 : TrackerState)
    (hx0 : 0 ≤ pt.1) (hx1 : pt.1 ≤ CALIB_OUTPUT_WIDTH - 1)
    (hy0 : 0 ≤ pt.2) (hy1 : pt.2 ≤ CALIB_OUTPUT_HEIGHT - 1)
    (hw0 : 0 ≤ size.1) (hh0 : 0 ≤ size.2) :
    (focusTracker pt size s0).region = specFocusRegion pt size ∧
    (focusTracker pt size s0).resetTimer = 10 ∧
    (∀ k, 1 ≤ k → k ≤ 9 →
      detectRegionUsed cols rows (focusTracker pt size s0) k =
        (focusTracker pt size s0).region) ∧
    detectRegionUsed cols rows (focusTracker pt size s0) 10 = fullRect cols rows ∧
    (detectStateAfter cols rows (focusTracker pt size s0) 10).region =
      fullRect cols rows := by
  have hhw : 0 ≤ Int.tdiv size.1 2 := Int.tdiv_nonneg hw0 (by norm_num)
  have hhh : 0 ≤ Int.tdiv size.2 2 := Int.tdiv_nonneg hh0 (by norm_num)
  refine ⟨?_, rfl, ?_, ?_, ?_⟩
  · simp only [focusTracker, specFocusRegion, rectOfPoints, RectI.mk.injEq,
      CALIB_OUTPUT_WIDTH, CALIB_OUTPUT_HEIGHT] at *
    refine ⟨?_, ?_, ?_, ?_⟩ <;> omega
  · intro k hk1 hk9
    have hstate := focus_states pt size cols rows s0 (k - 1) (by omega)
    simp only [detectRegionUsed, hstate]
    have hpos : ¬(10 - ((k - 1 : ℕ) : ℤ) - 1 ≤ 0) := by
      have : ((k - 1 : ℕ) : ℤ) ≤ 8 := by
        have : k - 1 ≤ 8 := by omega
        exact_mod_cast this
      omega
    show (if (10 : ℤ) - ((k - 1 : ℕ) : ℤ) - 1 ≤ 0 then fullRect cols rows
      else (focusTracker pt size s0).region) = (focusTracker pt size s0).region
    rw [if_neg hpos]
  · have hstate := focus_states pt size cols rows s0 9 (by omega)
    have h9 : (10 : ℕ) - 1 = 9 := rfl
    simp only [detectRegionUsed, h9, hstate]
    norm_num [detectRegionStep]
  · have hstate := focus_states pt size cols rows s0 9 (by omega)
    show (detectRegionStep cols rows (detectStateAfter cols rows
      (focusTracker pt size s0) 9)).2.region = fullRect cols rows
    rw [hstate]
    norm_num [detectRegionStep]

/-- Witness for C5 at point (320, 240), size 256 x 256, view 640 x 480:
the ninth detection still uses the focused region, the tenth uses the full
frame. -/
theorem focus_region_countdown_witness :
    detectRegionUsed 640 480 (focusTracker (320, 240) (256, 256)
        ⟨fullRect 640 480, 0⟩) 9 =
      (focusTracker (320, 240) (256, 256) ⟨fullRect 640 480, 0⟩).region ∧
    detectRegionUsed 640 480 (focusTracker (320, 240) (256, 256)
        ⟨fullRect 640 480, 0⟩) 10 = fullRect 640 480 :=
  ⟨(focus_region_countdown (320, 240) (256, 256) 640 480 ⟨fullRect 640 480, 0⟩
      (by norm_num) (by norm_num [CALIB_OUTPUT_WIDTH]) (by norm_num)
      (by norm_num [CALIB_OUTPUT_HEIGHT]) (by norm_num) (by norm_num)).2.2.1 9
      (by norm_num) (by norm_num),
   (focus_region_countdown (320, 240) (256, 256) 640 480 ⟨fullRect 640 480, 0⟩
      (by norm_num) (by norm_num [CALIB_OUTPUT_WIDTH]) (by norm_num)
      (by norm_num [CALIB_OUTPUT_HEIGHT]) (by norm_num) (by norm_num)).2.2.2.1⟩

/-- Counterexample for C5 as stated: the countdown is decremented before
the region is used, so the tenth detect call after a focus already runs on
the full frame — the focused region is not in effect for all 10 of the
detections the claim covers. -/
theorem focus_claim_counterexample :
    detectRegionUsed 640 480 (focusTracker (320, 240) (256, 256)
        ⟨fullRect 640 480, 0⟩) 10 = fullRect 640 480 ∧
    (focusTracker (320, 240) (256, 256) ⟨fullRect 640 480, 0⟩).region ≠
      fullRect 640 480 := by
  decide

/-! Calibrator::capture_image (C6). -/

abbrev Frame := List ℕ

structure Webcam where
  frames : List Frame

def drop_frame (c : Webcam) : Webcam := ⟨c.frames.tail⟩

def next_frame (c : Webcam) : Frame × Webcam := (c.frames.headD [], ⟨c.frames.tail⟩)

/-- cv::accumulate of an 8-bit frame into the CV_64FC3 running sum
(exact on these integer magnitudes). -/
def accumulateFrame (acc f : Frame) : Frame := List.zipWith (· + ·) acc f

def captureLoop : ℕ → Webcam → Frame → Frame × Webcam
  | 0, c, acc => (acc, c)
  | n + 1, c, acc =>
    let fc := next_frame c
    captureLoop n fc.2 (accumulateFrame acc fc.1)

/-- Pixelwise average to 8 bits: cv::divide by the sample count followed by
convertTo CV_8UC3, i.e. cvRound (round half to even) with saturation. -/
def meanPixel (s n : ℕ) : ℕ := min (rheDiv s n) 255

/-- Calibrator::capture_image after the settle sleep: three drop_frame
calls, three next_frame reads into dst, then (for capture_samples > 1)
capture_samples accumulated reads averaged into dst. -/
def capture_image (captureSamples pixels : ℕ) (cam : Webcam) : Frame × Webcam :=
  let c1 := drop_frame (drop_frame (drop_frame cam))
  let r1 := next_frame c1
  let r2 := next_frame r1.2
  let r3 := next_frame r2.2
  if 1 < captureSamples then
    let lc := captureLoop captureSamples r3.2 (List.replicate pixels 0)
    (lc.1.map (fun s => meanPixel s captureSamples), lc.2)
  else (r3.1, r3.2)

def sumFrames (pixels : ℕ) (fs : List Frame) : Frame :=
  fs.foldl accumulateFrame (List.replicate pixels 0)

def meanOfFrames (pixels n : ℕ) (fs : List Frame) : Frame :=
  (sumFrames pixels fs).map (fun s => meanPixel s n)

theorem captureLoop_spec (n : ℕ) :
    ∀ (c : Webcam) (acc : Frame), n ≤ c.frames.length →
      captureLoop n c acc =
        ((c.frames.take n).foldl accumulateFrame acc, ⟨c.frames.drop n⟩) := by
  induction n with
  | zero =>
    intro c acc _
    rfl
  | succ m ih =>
    rintro ⟨fs⟩ acc h
    cases fs with
    | nil =>
      simp at h
    | cons f rest =>
      have hr := ih ⟨rest⟩ (accumulateFrame acc f) (by simpa using Nat.lt_succ_iff.mp h)
      show captureLoop m ⟨rest⟩ (accumulateFrame acc f) = _
      rw [hr]
      rfl

/-- C6 (amended): capture_image consumes six camera frames before
sampling — three are dropped as stale and three more are read into dst —
and then, for N_samples > 1, reads N_samples further frames and returns
their pixelwise mean cast to 8-bit; for N_samples = 1 no further frame is
read and the returned image is the sixth consumed frame. -/
theorem capture_image_frames (N pixels : ℕ) (cam : Webcam)
    (hlen : 6 + N ≤ cam.frames.length) :
    (1 < N → capture_image N pixels cam =
      (meanOfFrames pixels N ((cam.frames.drop 6).take N),
       ⟨cam.frames.drop (6 + N)⟩)) ∧
    (N = 1 → capture_image N pixels cam =
      (cam.frames.getD 5 [], ⟨cam.frames.drop 6⟩)) := by
  rcases cam with ⟨fs⟩
  have hlenfs : 6 + N ≤ fs.length := hlen
  have h6 : 6 ≤ fs.length := by omega
  obtain ⟨a, fs1, rfl⟩ : ∃ a t, fs = a :: t := by
    cases fs with
    | nil => simp at h6
    | cons a t => exact ⟨a, t, rfl⟩
  obtain ⟨b, fs2, rfl⟩ : ∃ b t, fs1 = b :: t := by
    cases fs1 with
    | nil => simp at h6
    | cons b t => exact ⟨b, t, rfl⟩
  obtain ⟨c, fs3, rfl⟩ : ∃ c t, fs2 = c :: t := by
    cases fs2 with
    | nil => simp at h6
    | cons c t => exact ⟨c, t, rfl⟩
  obtain ⟨d, fs4, rfl⟩ : ∃ d t, fs3 = d :: t := by
    cases fs3 with
    | nil => simp at h6
    | cons d t => exact ⟨d, t, rfl⟩
  obtain ⟨e, fs5, rfl⟩ : ∃ e t, fs4 = e :: t := by
    cases fs4 with
    | nil => simp at h6
    | cons e t => exact ⟨e, t, rfl⟩
  obtain ⟨f, fs6, rfl⟩ : ∃ f t, fs5 = f :: t := by
    cases fs5 with
    | nil => simp at h6
    | cons f t => exact ⟨f, t, rfl⟩
  constructor
  · intro hN
    have hlen' : 6 + N ≤ (a :: b :: c :: d :: e :: f :: fs6).length := hlen
    simp only [List.length_cons] at hlen'
    have hloop := captureLoop_spec N ⟨fs6⟩ (List.replicate pixels 0)
      (show N ≤ fs6.length by omega)
    calc capture_image N pixels ⟨a :: b :: c :: d :: e :: f :: fs6⟩
        = ((captureLoop N ⟨fs6⟩ (List.replicate pixels 0)).1.map
             (fun s => meanPixel s N),
           (captureLoop N ⟨fs6⟩ (List.replicate pixels 0)).2) := by
          simp only [capture_image, drop_frame, next_frame, List.tail_cons,
            if_pos hN]
      _ = (meanOfFrames pixels N (fs6.take N), ⟨fs6.drop N⟩) := by
          rw [hloop]
          simp [meanOfFrames, sumFrames]
      _ = (meanOfFrames pixels N
             (((a :: b :: c :: d :: e :: f :: fs6).drop 6).take N),
           ⟨(a :: b :: c :: d :: e :: f :: fs6).drop (6 + N)⟩) := by
          rw [show (6 : ℕ) + N = N + 6 from by omega]
          rfl
  · intro hN
    subst hN
    rfl

/-- Witness for C6: an 8-frame stream of single-pixel frames with
N_samples = 2; the mean is taken over the seventh and eighth frames. -/
theorem capture_image_frames_witness :
    capture_image 2 1 ⟨[[0], [1], [2], [3], [4], [5], [6], [7]]⟩ =
      (meanOfFrames 1 2 ((([[0], [1], [2], [3], [4], [5], [6], [7]] :
        List Frame).drop 6).take 2),
       ⟨([[0], [1], [2], [3], [4], [5], [6], [7]] : List Frame).drop (6 + 2)⟩) :=
  (capture_image_frames 2 1 ⟨[[0], [1], [2], [3], [4], [5], [6], [7]]⟩
    (by decide)).1 (by decide)

/-- Counterexample for C6 as stated: on the stream of single-pixel frames
0..7 with N_samples = 2 the returned image is the rounded mean of frames 6
and 7 (zero-based), namely [6], not of frames 3 and 4 as the claim's
"discard exactly 3, then read N_samples" scheme gives ([4]); and 8 frames
are consumed, not 3 + 2 = 5. -/
theorem capture_image_claim_counterexample :
    (capture_image 2 1 ⟨[[0], [1], [2], [3], [4], [5], [6], [7]]⟩).1 ≠
      meanOfFrames 1 2 ((([[0], [1], [2], [3], [4], [5], [6], [7]] :
        List Frame).drop 3).take 2) ∧
    (capture_image 2 1 ⟨[[0], [1], [2], [3], [4], [5], [6], [7]]⟩).2.frames.length ≠
      8 - (3 + 2) := by
  decide

/-! FingerTracker::detect tracking phase (C8). -/

/-- std::pow(MAX_TRACKING_RANGE, 2) with MAX_TRACKING_RANGE = 75; the
comparison against integer squared distances is exact in double. -/
def MAX_TRACKING_RANGE_SQ : ℤ := 5625

/-- Entries of m_Candidates: (tip, centre-of-mass) pairs. -/
abbrev Candidate := Pt × Pt

def defaultFingertip : Fingertip := ⟨(0, 0), (0, 0), 0, 0⟩

def defaultCandidate : Candidate := ((0, 0), (0, 0))

/-- Inner loop of the tracking phase: the index of the closest candidate
within strict squared distance MAX_TRACKING_RANGE² of the tracked finger
point; the strict < update keeps the first of equally distant candidates. -/
def findClosestFrom (p : Pt) : List Candidate → ℕ → ℤ → Option ℕ → Option ℕ
  | [], _, _, best => best
  | cand :: rest, i, bestD, best =>
    let v := psub p cand.1
    if pdot v v < bestD then findClosestFrom p rest (i + 1) (pdot v v) (some i)
    else findClosestFrom p rest (i + 1) bestD best

def findClosestCandidate (p : Pt) (cands : List Candidate) : Option ℕ :=
  findClosestFrom p cands 0 MAX_TRACKING_RANGE_SQ none

/-- std::swap(v[i], v.back()); v.pop_back(). -/
def swapRemove {α : Type} (l : List α) (i : ℕ) (dflt : α) : List α :=
  (l.set i (l.getD (l.length - 1) dflt)).dropLast

/-- The outer tracking loop of detect, with explicit fuel (the C++ loop
index m is decremented on a match after the swap-removal, so each
iteration either advances m or shrinks the memory vector; fuel
2·|memory|+1 always suffices).  Returns (remaining memory, remaining
candidates, emitted fingertips). -/
def matchLoop :
    ℕ → ℕ → List (Fingertip × ℤ) → List Candidate → List Fingertip →
      List (Fingertip × ℤ) × List Candidate × List Fingertip
  | 0, _, mem, cands, out => (mem, cands, out)
  | fuel + 1, m, mem, cands, out =>
    if mem.length ≤ m then (mem, cands, out)
    else
      let entry := mem.getD m (defaultFingertip, 0)
      match findClosestCandidate entry.1.point cands with
      | some ci =>
        let cand := cands.getD ci defaultCandidate
        matchLoop fuel m (swapRemove mem m (defaultFingertip, 0))
          (swapRemove cands ci defaultCandidate)
          (out ++ [⟨cand.1, cand.2, entry.1.age + 1, entry.1.id⟩])
      | none => matchLoop fuel (m + 1) mem cands out

/-- The tracking phase of FingerTracker::detect: match candidates against
tracking memory, then append the unmatched candidates as new fingertips
with age 1 and fresh ids drawn from the monotonic counter m_NextID.
Returns the emitted fingertips and the new counter value. -/
def detectTracking (mem : List (Fingertip × ℤ)) (cands : List Candidate)
    (nextId : ℕ) : List Fingertip × ℕ :=
  let r := matchLoop (2 * mem.length + 1) 0 mem cands []
  (r.2.2 ++ r.2.1.mapIdx (fun i c => ⟨c.1, c.2, 1, nextId + i⟩),
   nextId + r.2.1.length)

/-! Claim C8. -/

/-- C8: if the tracking memory holds exactly one fingertip (id A, point p)
and detect produced exactly one candidate whose tip lies within squared
distance < 75² of p, then the emitted fingertip list is exactly the
matched update — the candidate's tip and com with age incremented and id A
— and the candidate is not additionally emitted as a new fingertip with a
fresh id (the id counter does not advance). -/
theorem tracker_preserves_id (f : Fingertip) (life : ℤ) (c : Candidate)
    (nextId : ℕ)
    (hclose : pdot (psub f.point c.1) (psub f.point c.1) < MAX_TRACKING_RANGE_SQ) :
    (detectTracking [(f, life)] [c] nextId).1 = [⟨c.1, c.2, f.age + 1, f.id⟩] ∧
    (detectTracking [(f, life)] [c] nextId).2 = nextId := by
  have hmatch : findClosestCandidate f.point [c] = some 0 := by
    simp only [findClosestCandidate, findClosestFrom, if_pos hclose]
  constructor
  · simp [detectTracking, matchLoop, hmatch, swapRemove]
  · simp [detectTracking, matchLoop, hmatch, swapRemove]

/-- Witness for C8: memory fingertip id 5 age 3 at (10,10), one candidate
with tip (12,11) at squared distance 5 < 5625. -/
theorem tracker_preserves_id_witness :
    (detectTracking [(⟨(10, 10), (12, 12), 3, 5⟩, 7)] [((12, 11), (14, 13))] 42).1 =
      [⟨(12, 11), (14, 13), 3 + 1, 5⟩] ∧
    (detectTracking [(⟨(10, 10), (12, 12), 3, 5⟩, 7)] [((12, 11), (14, 13))] 42).2 = 42 :=
  tracker_preserves_id ⟨(10, 10), (12, 12), 3, 5⟩ 7 ((12, 11), (14, 13)) 42
    (by decide)

/-! FingerTracker::detect candidate extraction (C1).  The convex hull is a
library call (cv::convexHull) and the arc score is a float atan2 curvature
test, so both enter the embedding as parameters: an index list of hull
extremities and a score assignment on contour indices.  The clustering and
emission logic is embedded exactly. -/

def MIN_CONTOUR_AREA : ℕ := 500

def ARC_MIN_SCORE : ℕ := 50

/-- NONMAX_PROXIMIITY (spelling as in the source) = 500. -/
def NONMAX_PROXIMIITY : ℤ := 500

/-- FingerTracker::edge_test against the tracking region (br() is
(x + width, y + height), exclusive). -/
def edge_test (region : RectI) (pt : Pt) : Bool :=
  decide (pt.1 = region.x) || decide (pt.2 = region.y) ||
  decide (pt.1 = region.x + region.width - 1) ||
  decide (pt.2 = region.y + region.height - 1)

/-- Twice the polygon area |Σ (xᵢ·yᵢ₊₁ − xᵢ₊₁·yᵢ)| of cv::contourArea
(exact for integer vertices); the test area < 500 becomes
contourArea2 < 1000. -/
def contourArea2 (contour : List Pt) : ℕ :=
  ((List.zip contour (contour.rotate 1)).foldl
    (fun (s : ℤ) (pq : Pt × Pt) => s + (pq.1.1 * pq.2.2 - pq.2.1 * pq.1.2))
    0).natAbs

/-- The candidate emitted when a cluster ends: tip contour[best], com the
midpoint of contour[(best+15) mod n] and contour[(best-15+n) mod n]. -/
def emitCandidate (contour : List Pt) (b : ℕ) : Candidate :=
  let n := contour.length
  (contour.getD b (0, 0),
   phalf (padd (contour.getD ((b + 15) % n) (0, 0))
               (contour.getD ((b + n - 15) % n) (0, 0))))

structure WalkState where
  last : ℕ
  best : Option ℕ
  bestScore : ℕ
  cands : List Candidate

/-- One iteration of the hull walk: if the current hull point lies beyond
squared distance NONMAX_PROXIMIITY of the previous walk point, the ended
cluster's best (if any) is emitted and a new cluster starts; then the
point's arc score competes for the cluster best (strict >). -/
def clusterStep (contour : List Pt) (score : ℕ → ℕ) (s : WalkState)
    (index : ℕ) : WalkState :=
  let v := psub (contour.getD index (0, 0)) (contour.getD s.last (0, 0))
  let s1 :=
    if NONMAX_PROXIMIITY < pdot v v then
      { last := index, best := none, bestScore := ARC_MIN_SCORE,
        cands := s.cands ++ (match s.best with
          | some b => [emitCandidate contour b]
          | none => []) }
    else { s with last := index }
  if s1.bestScore < score index then
    { s1 with best := some index, bestScore := score index }
  else s1

/-- The hull indices in walk order: extremities[(offset + i) mod size]
for i = 0 .. size-1. -/
def walkSequence (extremities : List ℕ) (offset : ℕ) : List ℕ :=
  (List.range extremities.length).map
    (fun i => extremities.getD ((offset + i) % extremities.length) 0)

/-- The first hull position whose contour point passes edge_test; equals
extremities.length when no hull point lies on the region edge, exactly as
the C++ search loop leaves offset = m_Extremities.size(). -/
def hullEdgeOffset (region : RectI) (contour : List Pt)
    (extremities : List ℕ) : ℕ :=
  extremities.findIdx (fun i => edge_test region (contour.getD i (0, 0)))

/-- The candidate list produced by the walk; the initial state carries the
source's initialisation int last = offset (an extremities position used as
a contour index). -/
def findClusterCandidates (contour : List Pt) (score : ℕ → ℕ)
    (extremities : List ℕ) (offset : ℕ) : List Candidate :=
  ((walkSequence extremities offset).foldl (clusterStep contour score)
    ⟨offset, none, ARC_MIN_SCORE, []⟩).cands

/-- Per-contour candidate extraction of detect: contours of area < 500
are skipped, the walk starts at the first edge hull point. -/
def detectContourCandidates (region : RectI) (contour : List Pt)
    (extremities : List ℕ) (score : ℕ → ℕ) : List Candidate :=
  if contourArea2 contour < 2 * MIN_CONTOUR_AREA then []
  else findClusterCandidates contour score extremities
    (hullEdgeOffset region contour extremities)

/-- Bool chain: every listed contour index lies within squared distance
NONMAX_PROXIMIITY of its predecessor (the first of the given previous
index). -/
def stepsWithin (contour : List Pt) : ℕ → List ℕ → Bool
  | _, [] => true
  | prev, i :: rest =>
    let v := psub (contour.getD i (0, 0)) (contour.getD prev (0, 0))
    decide (pdot v v ≤ NONMAX_PROXIMIITY) && stepsWithin contour i rest

theorem clusterWalk_no_break (contour : List Pt) (score : ℕ → ℕ) :
    ∀ (seq : List ℕ) (s : WalkState),
      stepsWithin contour s.last seq = true →
      (seq.foldl (clusterStep contour score) s).cands = s.cands := by
  intro seq
  induction seq with
  | nil =>
    intro s _
    rfl
  | cons i rest ih =>
    intro s hchain
    simp only [stepsWithin, Bool.and_eq_true, decide_eq_true_eq] at hchain
    obtain ⟨hd, hrest⟩ := hchain
    have hnb : ¬(NONMAX_PROXIMIITY <
        pdot (psub (contour.getD i (0, 0)) (contour.getD s.last (0, 0)))
             (psub (contour.getD i (0, 0)) (contour.getD s.last (0, 0)))) :=
      not_lt.mpr hd
    show (rest.foldl (clusterStep contour score) (clusterStep contour score s i)).cands
      = s.cands
    by_cases hsc : ({ s with last := i } : WalkState).bestScore < score i
    · have hstep : clusterStep contour score s i =
          { last := i, best := some i, bestScore := score i, cands := s.cands } := by
        simp only [clusterStep, if_neg hnb, if_pos hsc]
      rw [hstep]
      exact ih ⟨i, some i, score i, s.cands⟩ hrest
    · have hstep : clusterStep contour score s i = { s with last := i } := by
        simp only [clusterStep, if_neg hnb, if_neg hsc]
      rw [hstep]
      exact ih { s with last := i } hrest

/-- C1 (amended): for every contour whose hull walk forms a single cluster
(each walk point within squared distance 500 of its predecessor, starting
from the source's initial reference contour[offset]), no candidate at all
is emitted — the walk only flushes a cluster's argmax when a later hull
point breaks the cluster, and the final cluster of the walk is never
flushed — regardless of how large the arc scores inside the cluster are. -/
theorem single_cluster_no_candidate (contour : List Pt) (score : ℕ → ℕ)
    (extremities : List ℕ) (offset : ℕ)
    (hchain : stepsWithin contour offset (walkSequence extremities offset) = true) :
    findClusterCandidates contour score extremities offset = [] := by
  exact clusterWalk_no_break contour score (walkSequence extremities offset)
    ⟨offset, none, ARC_MIN_SCORE, []⟩ hchain

/-- The counterexample contour: a digital 16-gon of radius 14 centred at
(15, 15) with integer edge midpoints interleaved (32 contour points), so
its area is about 600 ≥ 500 and consecutive hull vertices lie within
squared distance 34 ≤ 500 of each other. -/
def contourCx : List Pt :=
  [(29, 15), (28, 17), (28, 20), (26, 22), (25, 25), (22, 26), (20, 28), (17, 28),
   (15, 29), (12, 28), (10, 28), (7, 26), (5, 25), (3, 22), (2, 20), (1, 17),
   (1, 15), (1, 12), (2, 10), (3, 7), (5, 5), (7, 3), (10, 2), (12, 1),
   (15, 1), (17, 1), (20, 2), (22, 3), (25, 5), (26, 7), (28, 10), (28, 12)]

/-- The hull extremities of contourCx: the sixteen 16-gon vertices. -/
def extremsCx : List ℕ :=
  [0, 2, 4, 6, 8, 10, 12, 14, 16, 18, 20, 22, 24, 26, 28, 30]

/-- An arc-score assignment giving hull point 8 (the top vertex (15,29))
a score of 60, above the minimum of 50. -/
def scoreCx (i : ℕ) : ℕ := if i = 8 then 60 else 0

set_option maxRecDepth 40000 in
/-- Counterexample for C1 as stated: contourCx has area ≥ 500, its hull
points form a single cluster (consecutive squared distances ≤ 500), the
cluster contains a point of arc score 60 > 50 — yet detect emits zero
candidates for it, not exactly one at the cluster's argmax: the final
cluster of the walk is never flushed. -/
theorem cluster_claim_counterexample :
    2 * MIN_CONTOUR_AREA ≤ contourArea2 contourCx ∧
    stepsWithin contourCx 0 (walkSequence extremsCx 0) = true ∧
    (8 ∈ extremsCx ∧ ARC_MIN_SCORE < scoreCx 8) ∧
    detectContourCandidates (fullRect 640 480) contourCx extremsCx scoreCx = [] := by
  decide

/-- Witness for C1 (amended) at contourCx with offset 0: the single-cluster
hypothesis holds and the emitted candidate list is empty. -/
theorem single_cluster_no_candidate_witness :
    findClusterCandidates contourCx scoreCx extremsCx 0 = [] :=
  single_cluster_no_candidate contourCx scoreCx extremsCx 0 (by decide)

end VT
